import Mathlib

/-!
Verification of the BashBook execution-queue controller
(`src/extension/Controller.ts`) against its natural-language specification.

The controller is an event-driven, single-threaded piece of state: a FIFO
`executionQueue`, a single `isExecuting` slot, per-execution notebook handles,
and per-command in-flight pty state (the closure variables `dataParts` and
`firstCommand` of `runExecutionQueue`).  We embed it as a state machine: each
externally triggered entry point (a cell submission, a cancellation token
firing, a pty data chunk, the `writeCommand` promise settling, a column
resize) is one event, and each event's handler is translated statement by
statement from the source.

Strings are represented as `List Char` so that every operation reduces inside
the kernel (`decide` / `rfl` on concrete traces).
-/

set_option maxHeartbeats 1000000

namespace BashBook

/-- Strings of the model, as plain character lists. -/
abbrev Str := List Char

/-- Conversion from Lean string literals. -/
def str (s : String) : Str := s.data

/-! ### Cell text normalization (Controller.ts lines 81-85)

`cell.document.getText().split("\n").map((c) => c.trim()).filter(Boolean)`. -/

/-- JavaScript `String.prototype.split("\n")` on a character list. -/
def splitLines : Str → List Str
  | [] => [[]]
  | c :: rest =>
    if c = '\n' then [] :: splitLines rest
    else
      match splitLines rest with
      | [] => [[c]]
      | l :: ls => (c :: l) :: ls

/-- Whitespace characters removed by JavaScript `String.prototype.trim`
(ASCII portion: space, tab, newline, carriage return, vertical tab,
form feed). -/
def isWsChar (c : Char) : Bool :=
  c = ' ' || c = '\t' || c = '\n' || c = '\r' ||
    c = Char.ofNat 11 || c = Char.ofNat 12

/-- JavaScript `String.prototype.trim` on a character list. -/
def trimChars (l : Str) : Str :=
  ((l.dropWhile isWsChar).reverse.dropWhile isWsChar).reverse

/-- Lines 81-85: split the submitted cell text into lines, trim each line and
drop the empty ones (`filter(Boolean)` keeps exactly the non-empty strings). -/
def splitCommands (text : Str) : List Str :=
  ((splitLines text).map trimChars).filter (fun s => !s.isEmpty)

/-- JavaScript `Array.prototype.join(sep)`. -/
def joinSep (sep : Str) : List Str → Str
  | [] => []
  | [x] => x
  | x :: xs => x ++ sep ++ joinSep sep xs

/-! ### The Output Codec (spec 4.2)

Modelled from the spec: the `ansiRegex` module imported on line 16 of
`Controller.ts` is not under `src/`; the spec describes the Output Codec as a
pure function removing ANSI escape/color control sequences, idempotent, and
never removing printable characters that are not part of a recognized escape
sequence.  We model the recognized sequences as CSI sequences
`ESC '[' body* final` with `body` in `0x20-0x3F` and `final` in `0x40-0x7E`,
and an orphan ESC control character (itself not printable) is also removed.
The scanner consumes one character per step, keeping the characters of a
candidate sequence pending until the sequence is recognized (then dropped) or
found malformed (then the pending printable characters are kept). -/

/-- ASCII escape character, `0x1B`. -/
def escChar : Char := Char.ofNat 27

/-- CSI parameter/intermediate bytes, `0x20`-`0x3F`. -/
def isSeqByte (c : Char) : Bool := 0x20 ≤ c.toNat && c.toNat < 0x40

/-- CSI final bytes, `0x40`-`0x7E`. -/
def isFinalByte (c : Char) : Bool := 0x40 ≤ c.toNat && c.toNat ≤ 0x7E

/-- Scanner mode of the Output Codec: outside any escape sequence, just after
an ESC, or inside a candidate CSI sequence holding the characters after the
ESC (starting with the `[`) pending. -/
inductive StripMode where
  | normal : StripMode
  | sawEsc : StripMode
  | csi (pending : Str) : StripMode
deriving DecidableEq

/-- Modelled from the spec: the Output Codec's strip scanner.  Removes every
recognized CSI sequence and every orphan ESC, and keeps all other
characters. -/
def stripGo : StripMode → Str → Str
  | .normal, [] => []
  | .normal, c :: rest =>
    if c = escChar then stripGo .sawEsc rest else c :: stripGo .normal rest
  | .sawEsc, [] => []
  | .sawEsc, c :: rest =>
    if c = '[' then stripGo (.csi ['[']) rest
    else if c = escChar then stripGo .sawEsc rest
    else c :: stripGo .normal rest
  | .csi pending, [] => pending
  | .csi pending, c :: rest =>
    if isFinalByte c then stripGo .normal rest
    else if isSeqByte c then stripGo (.csi (pending ++ [c])) rest
    else if c = escChar then pending ++ stripGo .sawEsc rest
    else pending ++ (c :: stripGo .normal rest)

/-- Modelled from the spec: `strip`, the Output Codec entry point
(`data.replace(ansiRegex, "")` on line 159 of `Controller.ts`). -/
def strip (s : Str) : Str := stripGo .normal s

/-- One segment of an input string as classified by the Output Codec: a kept
character, or a dropped run of characters. -/
inductive Seg where
  | keep (c : Char) : Seg
  | drop (l : Str) : Seg
deriving DecidableEq

/-- The characters of a segment. -/
def segStr : Seg → Str
  | .keep c => [c]
  | .drop l => l

/-- The characters a segment contributes to the stripped output. -/
def segOut : Seg → Str
  | .keep c => [c]
  | .drop _ => []

/-- Recognized CSI sequence body: zero or more sequence bytes followed by one
final byte. -/
def csiBody : Str → Bool
  | [] => false
  | [c] => isFinalByte c
  | c :: rest => isSeqByte c && csiBody rest

/-- Recognized escape sequence: `ESC '[' body` with `body` a `csiBody`. -/
def recognizedSeq : Str → Bool
  | e :: b :: rest => e = escChar && b = '[' && csiBody rest
  | _ => false

/-- Segmentation of an input string by the strip scanner: mirrors `stripGo`,
recording for every character whether it is kept or inside which dropped
run it falls. -/
def segsGo : StripMode → Str → List Seg
  | .normal, [] => []
  | .normal, c :: rest =>
    if c = escChar then segsGo .sawEsc rest else .keep c :: segsGo .normal rest
  | .sawEsc, [] => [.drop [escChar]]
  | .sawEsc, c :: rest =>
    if c = '[' then segsGo (.csi ['[']) rest
    else if c = escChar then .drop [escChar] :: segsGo .sawEsc rest
    else .drop [escChar] :: .keep c :: segsGo .normal rest
  | .csi pending, [] => .drop [escChar] :: pending.map .keep
  | .csi pending, c :: rest =>
    if isFinalByte c then .drop (escChar :: pending ++ [c]) :: segsGo .normal rest
    else if isSeqByte c then segsGo (.csi (pending ++ [c])) rest
    else if c = escChar then
      .drop [escChar] :: pending.map .keep ++ segsGo .sawEsc rest
    else .drop [escChar] :: pending.map .keep ++ (.keep c :: segsGo .normal rest)

/-- Segmentation of a whole input string. -/
def segs (s : Str) : List Seg := segsGo .normal s

/-! ### Data model (Controller.ts lines 24-35, spec section 3) -/

/-- The `CommandExecution` queue entry (lines 24-28): derived command line,
execution handle (identified here by its execution-order number `rid`), and
the originating cell's document uri. -/
structure CommandExecution where
  rid : Nat
  command : Str
  uri : Str
deriving DecidableEq

/-- State of a notebook cell execution handle: `start` has been called, or
`end(success)` has been called. -/
inductive HandleState where
  | started : HandleState
  | ended (success : Bool) : HandleState
deriving DecidableEq

/-- One notebook output item as emitted by the controller: a streamed `data`
message (raw chunk, first-chunk flag, current column count), a `finished`
message, the plain-text transcript, or the error item of a failed
pre-execution transform. -/
inductive Item where
  | dataMsg (uri : Str) (data : Str) (firstCommand : Bool) (cols : Nat) : Item
  | finishedMsg (uri : Str) : Item
  | textItem (text : Str) : Item
  | errorItem : Item
deriving DecidableEq

/-- Host-side record of one `NotebookCellExecution`: its handle state, its
cancellation token's flag, its output item list, whether line 95 registered a
cancellation observer for it (not done for empty cells), and the `uri`
captured by that observer closure (line 93). -/
structure ExecInfo where
  state : HandleState
  cancelRequested : Bool
  output : List Item
  hasObserver : Bool
  uri : Str
deriving DecidableEq

/-- Per-command pty state for one `pty.writeCommand` call still in flight:
the uri and updated command passed in, and the closure variables `dataParts`
and `firstCommand` of `runExecutionQueue` (lines 141-142). -/
structure InFlight where
  uri : Str
  command : Str
  dataParts : List Str
  firstCommand : Bool
deriving DecidableEq

/-- The controller state: the FIFO `executionQueue`, the `isExecuting` slot,
the `executionOrder` counter, the execution handles created so far (keyed by
execution-order number), the pty commands in flight (keyed the same way), the
number of `pty.terminate()` calls made, and the pty column count. -/
structure St where
  executionQueue : List CommandExecution
  isExecuting : Option CommandExecution
  executionOrder : Nat
  execs : Nat → Option ExecInfo
  inflight : Nat → Option InFlight
  terminates : Nat
  cols : Nat

/-- The initial controller state: empty queue, no active execution, counter
zero, no handles, nothing in flight. -/
def initSt : St where
  executionQueue := []
  isExecuting := none
  executionOrder := 0
  execs := fun _ => none
  inflight := fun _ => none
  terminates := 0
  cols := 80

/-- The pre-execution transform `updateCommand` (an external collaborator):
`none` models a thrown error. -/
abbrev Tr := Str → Option Str

/-- Point update of the execution-handle map. -/
def modifyExec (st : St) (rid : Nat) (g : ExecInfo → ExecInfo) : St :=
  { st with execs := fun r => if r = rid then (st.execs rid).map g else st.execs r }

/-- `execution.end(success, ...)`: the host handle records the final state of
its first `end` call and rejects any later one, so a second `end` leaves the
recorded state unchanged. -/
def endExec (st : St) (rid : Nat) (success : Bool) : St :=
  modifyExec st rid fun e =>
    match e.state with
    | .started => { e with state := .ended success }
    | .ended _ => e

/-- `execution.appendOutput(...)`: the host rejects output updates once the
execution has ended. -/
def appendOutput (st : St) (rid : Nat) (item : Item) : St :=
  modifyExec st rid fun e =>
    match e.state with
    | .started => { e with output := e.output ++ [item] }
    | .ended _ => e

/-- `execution.replaceOutput(...)`: the host rejects output updates once the
execution has ended. -/
def replaceOutput (st : St) (rid : Nat) (items : List Item) : St :=
  modifyExec st rid fun e =>
    match e.state with
    | .started => { e with output := items }
    | .ended _ => e

/-- `execution.token.isCancellationRequested` for the handle `rid`. -/
def cancelRequestedOf (st : St) (rid : Nat) : Bool :=
  match st.execs rid with
  | some e => e.cancelRequested
  | none => false

/-- The handle state of execution `rid`, if the handle exists. -/
def stateOf (st : St) (rid : Nat) : Option HandleState :=
  (st.execs rid).map fun e => e.state

/-- The output item list of execution `rid` (empty if the handle does not
exist). -/
def outputOf (st : St) (rid : Nat) : List Item :=
  match st.execs rid with
  | some e => e.output
  | none => []

/-- The raw chunks of the `data` messages of an output list, in emission
order. -/
def dataOf : List Item → List Str
  | [] => []
  | .dataMsg _ d _ _ :: rest => d :: dataOf rest
  | _ :: rest => dataOf rest

/-- Whether an output list consists of `data` messages only. -/
def allData : List Item → Bool
  | [] => true
  | .dataMsg _ _ _ _ :: rest => allData rest
  | _ => false

/-! ### The Queue Manager (Controller.ts lines 112-197) -/

/-- Promotion of the dequeued head request (lines 126-196): set the
`isExecuting` slot, run the pre-execution transform — on a thrown error
replace the output with the error item, end the execution as failed and clear
the slot *without re-invoking the drain* (the source omits the re-drain on
this path) — and otherwise hand the updated command to `pty.writeCommand`,
creating fresh in-flight state with empty `dataParts` and `firstCommand`
true. -/
def promote (tr : Tr) (st : St) (head : CommandExecution) : St :=
  let st2 := { st with isExecuting := some head }
  match tr head.command with
  | none =>
    let st3 := replaceOutput st2 head.rid [Item.errorItem]
    let st4 := endExec st3 head.rid false
    { st4 with isExecuting := none }
  | some updated =>
    { st2 with
        inflight := fun r =>
          if r = head.rid then
            some { uri := head.uri, command := updated, dataParts := [], firstCommand := true }
          else st2.inflight r }

/-- The recursion of `runExecutionQueue` over the queue (lines 117-124):
shift the head; if its cancellation was already requested, recurse to the
next head (lazy skip); otherwise promote it. -/
def promoteLoop (tr : Tr) (st : St) : List CommandExecution → St
  | [] => { st with executionQueue := [] }
  | head :: rest =>
    if cancelRequestedOf st head.rid then promoteLoop tr st rest
    else promote tr { st with executionQueue := rest } head

/-- `runExecutionQueue` (lines 112-197): return unchanged if the queue is
empty or a request is already active, otherwise walk the queue. -/
def runExecutionQueue (tr : Tr) (st : St) : St :=
  if st.isExecuting.isSome then st else promoteLoop tr st st.executionQueue

/-- `doExecution` (lines 75-110): create the execution handle with the next
execution-order number and start it; split the cell text into trimmed
non-empty lines; if none remain, end the execution with success and clear the
`isExecuting` slot (line 89) and return; otherwise register the cancellation
observer, enqueue the request with the lines joined by `"; "`, and drain. -/
def doExecution (tr : Tr) (st : St) (text uri : Str) : St :=
  let rid := st.executionOrder + 1
  let commands := splitCommands text
  if commands.isEmpty then
    { st with
        executionOrder := rid
        execs := fun r =>
          if r = rid then
            some { state := .ended true, cancelRequested := false, output := [],
                   hasObserver := false, uri := uri }
          else st.execs r
        isExecuting := none }
  else
    let st1 : St :=
      { st with
          executionOrder := rid
          execs := fun r =>
            if r = rid then
              some { state := .started, cancelRequested := false, output := [],
                     hasObserver := true, uri := uri }
            else st.execs r }
    let req : CommandExecution :=
      { rid := rid, command := joinSep (str "; ") commands, uri := uri }
    runExecutionQueue tr { st1 with executionQueue := st1.executionQueue ++ [req] }

/-- The cancellation token of execution `rid` fires (lines 95-101): the token
flag is set (a token fires at most once), then the registered observer runs —
if the *uri* of the currently active request equals the captured uri, call
`pty.terminate()`; otherwise end this execution as failed. -/
def cancelEvent (st : St) (rid : Nat) : St :=
  match st.execs rid with
  | none => st
  | some e =>
    if e.cancelRequested then st
    else
      let st1 := modifyExec st rid fun x => { x with cancelRequested := true }
      if e.hasObserver then
        match st1.isExecuting with
        | some a =>
          if a.uri = e.uri then { st1 with terminates := st1.terminates + 1 }
          else endExec st1 rid false
        | none => endExec st1 rid false
      else st1

/-- The pty delivers one output chunk for the in-flight command `rid`
(lines 144-163): if cancellation has been requested for the execution, drop
the chunk; otherwise build the `data` message from the raw chunk, the current
`firstCommand` flag and the current column count, flip `firstCommand` off,
append the ANSI-stripped chunk to `dataParts`, and append the message to the
execution's output. -/
def chunkEvent (st : St) (rid : Nat) (data : Str) : St :=
  match st.inflight rid with
  | none => st
  | some f =>
    if cancelRequestedOf st rid then st
    else
      let msg := Item.dataMsg f.uri data f.firstCommand st.cols
      let st1 :=
        { st with
            inflight := fun r =>
              if r = rid then
                some { f with firstCommand := false, dataParts := f.dataParts ++ [strip data] }
              else st.inflight r }
      appendOutput st1 rid msg

/-- The `pty.writeCommand` promise for the in-flight command `rid` settles
(lines 165-196): `end(success)` replaces the whole output with the `finished`
message plus the newline-joined transcript when at least one chunk was
emitted, then ends the execution; the `finally` clause clears the in-flight
state and the `isExecuting` slot and re-invokes the drain. -/
def settleEvent (tr : Tr) (st : St) (rid : Nat) (success : Bool) : St :=
  match st.inflight rid with
  | none => st
  | some f =>
    let st1 :=
      if f.firstCommand then st
      else
        replaceOutput st rid
          [Item.finishedMsg f.uri, Item.textItem (joinSep [Char.ofNat 10] f.dataParts)]
    let st2 := endExec st1 rid success
    let st3 :=
      { st2 with
          inflight := fun r => if r = rid then none else st2.inflight r
          isExecuting := none }
    runExecutionQueue tr st3

/-- The externally triggered events of the controller. -/
inductive Ev where
  | submit (text uri : Str) : Ev
  | cancel (rid : Nat) : Ev
  | chunk (rid : Nat) (data : Str) : Ev
  | settle (rid : Nat) (success : Bool) : Ev
  | setCols (n : Nat) : Ev
deriving DecidableEq

/-- One step of the controller. -/
def stepEv (tr : Tr) (st : St) : Ev → St
  | .submit text uri => doExecution tr st text uri
  | .cancel rid => cancelEvent st rid
  | .chunk rid data => chunkEvent st rid data
  | .settle rid success => settleEvent tr st rid success
  | .setCols n => { st with cols := n }

/-- The controller state after a trace of events from the initial state. -/
def runTrace (tr : Tr) (evs : List Ev) : St :=
  evs.foldl (stepEv tr) initSt

/-- The identity pre-execution transform (no variables to substitute). -/
def trId : Tr := fun c => some c

/-- A pre-execution transform that throws exactly on the command `boom`. -/
def trFail : Tr := fun c => if c = str "boom" then none else some c

/-- Trace for the transform-failure stall: a long-running first command, a
command whose transform throws queued behind it, a third command queued
behind that, then the first command settles. -/
def c1trace : List Ev :=
  [.submit (str "sleep 1") (str "u0"), .submit (str "boom") (str "u1"),
   .submit (str "ok") (str "u2"), .settle 1 true]

/-- Trace interleaving an empty-cell submission between two non-empty ones
while the first is still running. -/
def c2trace : List Ev :=
  [.submit (str "a") (str "u1"), .submit (str "") (str "u2"),
   .submit (str "c") (str "u3")]

/-- Trace submitting a whitespace-only cell while a command is active. -/
def c3trace : List Ev :=
  [.submit (str "a") (str "u1"), .submit (str "  \n ") (str "u2")]

/-- Trace submitting the same cell twice and cancelling the still-queued
second request. -/
def c4trace : List Ev :=
  [.submit (str "a") (str "uu"), .submit (str "b") (str "uu"), .cancel 2]

/-- Trace with a chunk received after the active execution was cancelled. -/
def c5xtrace : List Ev :=
  [.submit (str "a") (str "u5"), .cancel 1, .chunk 1 (str "boom"), .settle 1 false]

/-- Trace producing an active execution with one emitted chunk. -/
def c5wtrace : List Ev :=
  [.submit (str "echo hi") (str "u5w"), .chunk 1 (str "hi")]

/-- Trace producing an ended execution (used to witness terminal-state
immutability). -/
def c6wtrace : List Ev :=
  [.submit (str "a") (str "u6"), .settle 1 true]

/-- Trace producing an active execution whose cancellation was requested. -/
def c7wtrace : List Ev :=
  [.submit (str "a") (str "u7"), .cancel 1]

/-- Trace producing an active request and a queued request with distinct
cells. -/
def c4wtrace : List Ev :=
  [.submit (str "a") (str "ua"), .submit (str "b") (str "ub")]

/-- Trace producing an active request and a queued request originating from
the same cell. -/
def c10wtrace : List Ev :=
  [.submit (str "a") (str "uu2"), .submit (str "b") (str "uu2")]

/-- The characters a scanner mode still owes to the input (pending
characters of a candidate sequence). -/
def modeStr : StripMode → Str
  | .normal => []
  | .sawEsc => [escChar]
  | .csi p => escChar :: p

/-- Well-formedness of a scanner mode: a candidate CSI sequence holds the
opening bracket followed by sequence bytes only. -/
def ModeOk : StripMode → Prop
  | .normal => True
  | .sawEsc => True
  | .csi p => ∃ ps, p = '[' :: ps ∧ ps.all isSeqByte = true

/-- Reachability invariant of the controller state: execution-order numbers
are fresh, queued requests are backed by handles and are not in flight, and
every in-flight command's closure state matches the `data` messages already
emitted for its execution. -/
structure Inv (st : St) : Prop where
  freshE : ∀ rid, st.executionOrder < rid → st.execs rid = none
  freshF : ∀ rid, st.executionOrder < rid → st.inflight rid = none
  queueLe : ∀ req ∈ st.executionQueue, req.rid ≤ st.executionOrder
  queueNodup : (st.executionQueue.map CommandExecution.rid).Nodup
  queueFlight : ∀ req ∈ st.executionQueue, st.inflight req.rid = none
  queueExec : ∀ req ∈ st.executionQueue, ∃ e, st.execs req.rid = some e ∧
    (e.cancelRequested = false → e.state = .started ∧ e.output = [])
  flight : ∀ rid f, st.inflight rid = some f → ∃ e, st.execs rid = some e ∧
    allData e.output = true ∧
    f.dataParts = (dataOf e.output).map strip ∧
    f.firstCommand = e.output.isEmpty ∧
    (e.cancelRequested = false → e.state = .started)

/-! ### Claim theorems: concrete executions of the code -/

/-- Claim C1.  The claim states that on a pre-execution transform failure the
Queue Manager emits an error output, ends the execution as failed, clears the
active slot, and re-invokes Drain so every request queued behind the failing
one eventually starts.  The code (lines 129-139) performs the first three
steps but returns without re-invoking `runExecutionQueue`: with a command
running, a transform-failing command queued behind it and a third command
queued behind that, after the first command settles the failing head is ended
with the error output and the slot is cleared, yet the third request stays in
the queue, is never promoted, never reaches the pty, and its handle is still
merely started — the queue has stalled with no active execution. -/
theorem c1_transform_failure_stalls_queue :
    stateOf (runTrace trFail c1trace) 2 = some (.ended false) ∧
    outputOf (runTrace trFail c1trace) 2 = [Item.errorItem] ∧
    (runTrace trFail c1trace).isExecuting = none ∧
    (runTrace trFail c1trace).executionQueue =
      [{ rid := 3, command := str "ok", uri := str "u2" }] ∧
    (runTrace trFail c1trace).inflight 3 = none ∧
    stateOf (runTrace trFail c1trace) 3 = some .started := by
  decide

/-- Claim C2.  The claim states that at most one `ExecutionRequest` drives
the Process Driver at any instant, for every submission sequence including
interleaved empty-cell submissions.  The code violates this: the empty-cell
path (line 89) sets `isExecuting = undefined` even while another command is
running, so a subsequent submission is promoted immediately and two
`writeCommand` calls are in flight at once — after submitting `a`, then an
empty cell, then `c`, both request 1 and request 3 are driving the pty. -/
theorem c2_two_requests_in_flight :
    (runTrace trId c2trace).inflight 1 =
      some { uri := str "u1", command := str "a", dataParts := [], firstCommand := true } ∧
    (runTrace trId c2trace).inflight 3 =
      some { uri := str "u3", command := str "c", dataParts := [], firstCommand := true } := by
  decide

/-- Claim C3.  The claim states that submitting an all-blank cell ends the
execution with success and leaves all other Queue Manager state — queue
contents and the active slot — unchanged.  The code does end it with success,
enqueues nothing, emits nothing and never touches the pty, but line 89
unconditionally clears the `isExecuting` slot: submitting a whitespace-only
cell while request 1 is active flips the slot from request 1 to empty. -/
theorem c3_empty_cell_clears_active_slot :
    (runTrace trId [.submit (str "a") (str "u1")]).isExecuting =
      some { rid := 1, command := str "a", uri := str "u1" } ∧
    (runTrace trId c3trace).isExecuting = none ∧
    stateOf (runTrace trId c3trace) 2 = some (.ended true) ∧
    outputOf (runTrace trId c3trace) 2 = [] ∧
    (runTrace trId c3trace).executionQueue = [] ∧
    (runTrace trId c3trace).inflight 2 = none ∧
    (runTrace trId c3trace).terminates = 0 := by
  decide

/-- Claim C4, counterexample.  The claim states that cancelling a still
queued, never promoted request immediately ends it with failure and forwards
no terminate signal.  The code dispatches on the *cell uri* (line 96): with
the same cell submitted twice — request 1 active, request 2 queued, both with
uri `uu` — cancelling the queued request 2 sends one `pty.terminate()` and
leaves request 2 un-ended (still started) and still in the queue. -/
theorem c4_counterexample :
    (runTrace trId c4trace).terminates = 1 ∧
    stateOf (runTrace trId c4trace) 2 = some .started ∧
    (runTrace trId c4trace).executionQueue =
      [{ rid := 2, command := str "b", uri := str "uu" }] := by
  decide

/-- Claim C4, amended.  Cancellation dispatch compares the cancelled
request's cell uri with the active request's cell uri: when a request with a
registered observer whose token has not yet fired is cancelled, if the active
request's uri equals the cancelled request's uri, exactly one terminate
signal is forwarded to the Process Driver and the execution is not ended by
the cancellation (its end state is decided later by the driver's completion
path); otherwise the execution is immediately and synchronously ended with
failure and its output is unchanged (zero messages are emitted for it). -/
theorem c4_amended_uri_dispatch (st : St) (rid : Nat) (e : ExecInfo)
    (hE : st.execs rid = some e) (hObs : e.hasObserver = true)
    (hNC : e.cancelRequested = false) :
    ((∃ a, st.isExecuting = some a ∧ a.uri = e.uri) →
      (cancelEvent st rid).terminates = st.terminates + 1 ∧
      (cancelEvent st rid).execs rid = some { e with cancelRequested := true }) ∧
    ((∀ a, st.isExecuting = some a → a.uri ≠ e.uri) → e.state = .started →
      (cancelEvent st rid).terminates = st.terminates ∧
      (cancelEvent st rid).execs rid =
        some { e with cancelRequested := true, state := .ended false }) := by
  constructor
  · rintro ⟨a, ha, hu⟩
    unfold cancelEvent
    rw [hE]
    simp [hNC, hObs, modifyExec, ha, hu, hE]
  · intro hne hstate
    unfold cancelEvent
    rw [hE]
    cases hA : st.isExecuting with
    | none =>
      simp [hNC, hObs, modifyExec, hA, endExec, hE, hstate]
    | some a =>
      have : ¬ a.uri = e.uri := hne a hA
      simp [hNC, hObs, modifyExec, hA, this, endExec, hE, hstate]

/-- Claim C4, witness: a state with request 1 active on cell `ua` and
request 2 queued from cell `ub`; cancelling request 2 ends it with failure,
leaves its output empty and forwards no terminate signal. -/
theorem c4_amended_witness :
    (cancelEvent (runTrace trId c4wtrace) 2).terminates =
      (runTrace trId c4wtrace).terminates ∧
    (cancelEvent (runTrace trId c4wtrace) 2).execs 2 =
      some { state := .ended false, cancelRequested := true, output := [],
             hasObserver := true, uri := str "ub" } :=
  (c4_amended_uri_dispatch (runTrace trId c4wtrace) 2
      { state := .started, cancelRequested := false, output := [],
        hasObserver := true, uri := str "ub" }
      (by decide) (by decide) (by decide)).2
    (by decide) (by decide)

/-- Claim C7.  A chunk delivered by the pty for an execution whose
cancellation has been requested is dropped entirely: the controller state is
unchanged — no `data` message is emitted and nothing is appended to the
transcript buffer (lines 144-147). -/
theorem c7_chunk_dropped_after_cancellation (st : St) (rid : Nat) (data : Str)
    (h : cancelRequestedOf st rid = true) :
    chunkEvent st rid data = st := by
  unfold chunkEvent
  cases hf : st.inflight rid with
  | none => rfl
  | some f => simp [h]

/-- Claim C7, witness: after cancelling the active request 1, a late chunk
leaves the state untouched. -/
theorem c7_witness :
    cancelRequestedOf (runTrace trId c7wtrace) 1 = true ∧
    chunkEvent (runTrace trId c7wtrace) 1 (str "x") = runTrace trId c7wtrace :=
  ⟨by decide, c7_chunk_dropped_after_cancellation (runTrace trId c7wtrace) 1 (str "x") (by decide)⟩

/-- Claim C8.  For every cell text with at least one non-blank line, the
command handed to the pty is the trimmed non-empty lines joined with the
statement separator `"; "`; in particular submitting `"echo a\n\necho b"`
puts exactly the single command line `"echo a; echo b"` in flight. -/
theorem c8_command_line_join :
    (∀ text uri : Str, splitCommands text ≠ [] →
      (doExecution trId initSt text uri).inflight 1 =
        some { uri := uri, command := joinSep (str "; ") (splitCommands text),
               dataParts := [], firstCommand := true }) ∧
    (runTrace trId [.submit (str "echo a\n\necho b") (str "u8")]).inflight 1 =
      some { uri := str "u8", command := str "echo a; echo b",
             dataParts := [], firstCommand := true } := by
  constructor
  · intro text uri h
    cases hc : splitCommands text with
    | nil => exact absurd hc h
    | cons c cs =>
      simp [doExecution, hc, runExecutionQueue, promoteLoop, promote,
        cancelRequestedOf, initSt, trId]
  · decide

/-- Claim C8, witness at the concrete text of the claim's example. -/
theorem c8_witness :
    (doExecution trId initSt (str "echo a\n\necho b") (str "w8")).inflight 1 =
      some { uri := str "w8",
             command := joinSep (str "; ") (splitCommands (str "echo a\n\necho b")),
             dataParts := [], firstCommand := true } :=
  c8_command_line_join.1 (str "echo a\n\necho b") (str "w8") (by decide)

/-! ### The reachability invariant -/

/-- The execution-handle map after a point update, read at the updated
key. -/
theorem execs_modifyExec_self (st : St) (rid : Nat) (g : ExecInfo → ExecInfo) :
    (modifyExec st rid g).execs rid = (st.execs rid).map g := by
  unfold modifyExec
  simp

/-- The execution-handle map after a point update, read at another key. -/
theorem execs_modifyExec_other (st : St) (r rid : Nat) (g : ExecInfo → ExecInfo)
    (h : rid ≠ r) : (modifyExec st r g).execs rid = st.execs rid := by
  unfold modifyExec
  simp [h]

/-- `dataOf` distributes over list append. -/
theorem dataOf_append (l1 l2 : List Item) :
    dataOf (l1 ++ l2) = dataOf l1 ++ dataOf l2 := by
  induction l1 with
  | nil => rfl
  | cons i rest ih => cases i <;> simp [dataOf, ih]

/-- Appending a `data` message preserves `allData`. -/
theorem allData_append_dataMsg (l : List Item) (u d : Str) (fc : Bool) (c : Nat) :
    allData (l ++ [Item.dataMsg u d fc c]) = allData l := by
  induction l with
  | nil => rfl
  | cons i rest ih => cases i <;> simp [allData, ih]

/-- An all-`data` output with no chunks is empty. -/
theorem allData_dataOf_nil (l : List Item) (ha : allData l = true)
    (hd : dataOf l = []) : l = [] := by
  cases l with
  | nil => rfl
  | cons i rest => cases i <;> simp [allData, dataOf] at ha hd

/-- `modifyExec` leaves every field except the handle map unchanged. -/
theorem modifyExec_inflight (st : St) (r : Nat) (g : ExecInfo → ExecInfo) :
    (modifyExec st r g).inflight = st.inflight := rfl

/-- `modifyExec` leaves the queue unchanged. -/
theorem modifyExec_executionQueue (st : St) (r : Nat) (g : ExecInfo → ExecInfo) :
    (modifyExec st r g).executionQueue = st.executionQueue := rfl

/-- `modifyExec` leaves the execution-order counter unchanged. -/
theorem modifyExec_executionOrder (st : St) (r : Nat) (g : ExecInfo → ExecInfo) :
    (modifyExec st r g).executionOrder = st.executionOrder := rfl

/-- `appendOutput` leaves the in-flight map unchanged. -/
theorem appendOutput_inflight (st : St) (r : Nat) (item : Item) :
    (appendOutput st r item).inflight = st.inflight := rfl

/-- `replaceOutput` leaves the in-flight map unchanged. -/
theorem replaceOutput_inflight (st : St) (r : Nat) (items : List Item) :
    (replaceOutput st r items).inflight = st.inflight := rfl

/-- `endExec` leaves the in-flight map unchanged. -/
theorem endExec_inflight (st : St) (r : Nat) (s : Bool) :
    (endExec st r s).inflight = st.inflight := rfl

/-- The host handle rejects a second `end`: `endExec` leaves an already ended
handle record unchanged. -/
theorem execs_endExec_of_ended (st : St) (rid : Nat) (s : Bool) (e : ExecInfo)
    (b : Bool) (he : st.execs rid = some e) (hs : e.state = .ended b) :
    (endExec st rid s).execs rid = some e := by
  unfold endExec
  rw [execs_modifyExec_self, he]
  simp [hs]

/-- `replaceOutput` on a started handle. -/
theorem execs_replaceOutput_of_started (st : St) (rid : Nat) (items : List Item)
    (e : ExecInfo) (he : st.execs rid = some e) (hs : e.state = .started) :
    (replaceOutput st rid items).execs rid = some { e with output := items } := by
  unfold replaceOutput
  rw [execs_modifyExec_self, he]
  simp [hs]

/-- `endExec` on a started handle. -/
theorem execs_endExec_of_started (st : St) (rid : Nat) (s : Bool) (e : ExecInfo)
    (he : st.execs rid = some e) (hs : e.state = .started) :
    (endExec st rid s).execs rid = some { e with state := .ended s } := by
  unfold endExec
  rw [execs_modifyExec_self, he]
  simp [hs]

/-- `appendOutput` on a started handle. -/
theorem execs_appendOutput_of_started (st : St) (rid : Nat) (item : Item)
    (e : ExecInfo) (he : st.execs rid = some e) (hs : e.state = .started) :
    (appendOutput st rid item).execs rid =
      some { e with output := e.output ++ [item] } := by
  unfold appendOutput
  rw [execs_modifyExec_self, he]
  simp [hs]

/-- `replaceOutput` at another key. -/
theorem execs_replaceOutput_other (st : St) (r rid : Nat) (items : List Item)
    (h : rid ≠ r) : (replaceOutput st r items).execs rid = st.execs rid := by
  unfold replaceOutput
  exact execs_modifyExec_other st r rid _ h

/-- `endExec` at another key. -/
theorem execs_endExec_other (st : St) (r rid : Nat) (s : Bool)
    (h : rid ≠ r) : (endExec st r s).execs rid = st.execs rid := by
  unfold endExec
  exact execs_modifyExec_other st r rid _ h

/-- `appendOutput` at another key. -/
theorem execs_appendOutput_other (st : St) (r rid : Nat) (item : Item)
    (h : rid ≠ r) : (appendOutput st r item).execs rid = st.execs rid := by
  unfold appendOutput
  exact execs_modifyExec_other st r rid _ h

/-- Promotion of a not-yet-cancelled head request preserves the invariant. -/
theorem inv_promote (tr : Tr) (st : St) (head : CommandExecution)
    (rest : List CommandExecution)
    (h : Inv { st with executionQueue := head :: rest })
    (hc : cancelRequestedOf st head.rid = false) :
    Inv (promote tr { st with executionQueue := rest } head) := by
  have hmem : head ∈ ({ st with executionQueue := head :: rest } : St).executionQueue :=
    List.mem_cons_self _ _
  obtain ⟨e, he, himp⟩ := h.queueExec head hmem
  have he' : st.execs head.rid = some e := he
  have hef : e.cancelRequested = false := by
    unfold cancelRequestedOf at hc
    rw [he'] at hc
    exact hc
  obtain ⟨hstate, hout⟩ := himp hef
  have hfl : st.inflight head.rid = none := h.queueFlight head hmem
  have hle : head.rid ≤ st.executionOrder := h.queueLe head hmem
  have hnd : ((head :: rest).map CommandExecution.rid).Nodup := h.queueNodup
  have hnotin : head.rid ∉ rest.map CommandExecution.rid := by
    rw [List.map_cons] at hnd
    exact (List.nodup_cons.mp hnd).1
  have hndrest : (rest.map CommandExecution.rid).Nodup := by
    rw [List.map_cons] at hnd
    exact (List.nodup_cons.mp hnd).2
  unfold promote
  cases htr : tr head.command with
  | none =>
    have hex2 : (endExec (replaceOutput
        { st with executionQueue := rest, isExecuting := some head }
        head.rid [Item.errorItem]) head.rid false).execs head.rid =
        some { e with output := [Item.errorItem], state := .ended false } := by
      have h1 := execs_replaceOutput_of_started
        { st with executionQueue := rest, isExecuting := some head }
        head.rid [Item.errorItem] e he' hstate
      exact execs_endExec_of_started _ head.rid false
        { e with output := [Item.errorItem] } h1 hstate
    refine ⟨?_, ?_, ?_, ?_, ?_, ?_, ?_⟩
    · intro rid hrid
      have hrid' : st.executionOrder < rid := hrid
      have hne : rid ≠ head.rid := by omega
      exact (execs_endExec_other _ head.rid rid false hne).trans
        ((execs_replaceOutput_other _ head.rid rid [Item.errorItem] hne).trans
          (h.freshE rid hrid'))
    · intro rid hrid
      have hrid' : st.executionOrder < rid := hrid
      exact h.freshF rid hrid'
    · intro req hm
      exact h.queueLe req (List.mem_cons_of_mem _ hm)
    · exact hndrest
    · intro req hm
      exact h.queueFlight req (List.mem_cons_of_mem _ hm)
    · intro req hm
      obtain ⟨e2, he2, himp2⟩ := h.queueExec req (List.mem_cons_of_mem _ hm)
      have hner : req.rid ≠ head.rid := by
        intro hEq
        exact hnotin (hEq ▸ List.mem_map_of_mem CommandExecution.rid hm)
      refine ⟨e2, ?_, himp2⟩
      exact (execs_endExec_other _ head.rid req.rid false hner).trans
        ((execs_replaceOutput_other _ head.rid req.rid [Item.errorItem] hner).trans he2)
    · intro rid f hf2
      have hf2' : st.inflight rid = some f := hf2
      have hne : rid ≠ head.rid := by
        intro hEq
        rw [hEq, hfl] at hf2'
        exact Option.noConfusion hf2'
      obtain ⟨e2, he2, rest2⟩ := h.flight rid f hf2'
      refine ⟨e2, ?_, rest2⟩
      exact (execs_endExec_other _ head.rid rid false hne).trans
        ((execs_replaceOutput_other _ head.rid rid [Item.errorItem] hne).trans he2)
  | some updated =>
    refine ⟨?_, ?_, ?_, ?_, ?_, ?_, ?_⟩
    · intro rid hrid
      exact h.freshE rid hrid
    · intro rid hrid
      have hrid' : st.executionOrder < rid := hrid
      have hne : rid ≠ head.rid := by omega
      simpa [hne] using h.freshF rid hrid'
    · intro req hm
      exact h.queueLe req (List.mem_cons_of_mem _ hm)
    · exact hndrest
    · intro req hm
      have hner : req.rid ≠ head.rid := by
        intro hEq
        exact hnotin (hEq ▸ List.mem_map_of_mem CommandExecution.rid hm)
      simpa [hner] using h.queueFlight req (List.mem_cons_of_mem _ hm)
    · intro req hm
      exact h.queueExec req (List.mem_cons_of_mem _ hm)
    · intro rid f hf2
      by_cases hne : rid = head.rid
      · have h0 : (if rid = head.rid then
            some ({ uri := head.uri, command := updated, dataParts := [],
                    firstCommand := true } : InFlight)
            else st.inflight rid) = some f := hf2
        rw [if_pos hne] at h0
        have hfeq : ({ uri := head.uri, command := updated, dataParts := [],
                       firstCommand := true } : InFlight) = f := Option.some.inj h0
        subst hfeq
        refine ⟨e, ?_, ?_, ?_, ?_, ?_⟩
        · rw [hne]; exact he'
        · rw [hout]; rfl
        · rw [hout]; rfl
        · rw [hout]; rfl
        · intro _; exact hstate
      · have hf2' : st.inflight rid = some f := by
          have h0 : (if rid = head.rid then
              some ({ uri := head.uri, command := updated, dataParts := [],
                      firstCommand := true } : InFlight)
              else st.inflight rid) = some f := hf2
          rwa [if_neg hne] at h0
        exact h.flight rid f hf2'

/-- The queue walk preserves the invariant. -/
theorem inv_promoteLoop (tr : Tr) (q : List CommandExecution) : ∀ st : St,
    Inv { st with executionQueue := q } → Inv (promoteLoop tr st q) := by
  induction q with
  | nil => intro st h; exact h
  | cons head rest ih =>
    intro st h
    unfold promoteLoop
    by_cases hc : cancelRequestedOf st head.rid = true
    · simp only [hc, if_true]
      apply ih
      have hnd : ((head :: rest).map CommandExecution.rid).Nodup := h.queueNodup
      refine ⟨h.freshE, h.freshF, ?_, ?_, ?_, ?_, h.flight⟩
      · intro req hm
        exact h.queueLe req (List.mem_cons_of_mem _ hm)
      · rw [List.map_cons] at hnd
        exact (List.nodup_cons.mp hnd).2
      · intro req hm
        exact h.queueFlight req (List.mem_cons_of_mem _ hm)
      · intro req hm
        exact h.queueExec req (List.mem_cons_of_mem _ hm)
    · simp only [hc, if_false]
      have hcf : cancelRequestedOf st head.rid = false := by
        revert hc
        cases cancelRequestedOf st head.rid <;> simp
      exact inv_promote tr st head rest h hcf

/-- The drain entry point preserves the invariant. -/
theorem inv_runExecutionQueue (tr : Tr) (st : St) (h : Inv st) :
    Inv (runExecutionQueue tr st) := by
  unfold runExecutionQueue
  by_cases hs : st.isExecuting.isSome = true
  · simp only [hs, if_true]
    exact h
  · simp only [hs, if_false]
    exact inv_promoteLoop tr st.executionQueue st h

/-- Submission preserves the invariant. -/
theorem inv_doExecution (tr : Tr) (st : St) (text uri : Str) (h : Inv st) :
    Inv (doExecution tr st text uri) := by
  unfold doExecution
  by_cases hc : (splitCommands text).isEmpty = true
  · simp only [hc, if_true]
    refine ⟨?_, ?_, ?_, ?_, ?_, ?_, ?_⟩
    · intro rid hrid
      have hrid' : st.executionOrder + 1 < rid := hrid
      have hne : rid ≠ st.executionOrder + 1 := by omega
      simpa [hne] using h.freshE rid (by omega)
    · intro rid hrid
      have hrid' : st.executionOrder + 1 < rid := hrid
      exact h.freshF rid (by omega)
    · intro req hm
      have hle := h.queueLe req hm
      show req.rid ≤ st.executionOrder + 1
      omega
    · exact h.queueNodup
    · exact h.queueFlight
    · intro req hm
      obtain ⟨e2, he2, himp2⟩ := h.queueExec req hm
      have hle2 : req.rid ≤ st.executionOrder := h.queueLe req hm
      have hne : req.rid ≠ st.executionOrder + 1 := by omega
      refine ⟨e2, ?_, himp2⟩
      simpa [hne] using he2
    · intro rid f hf
      have hf' : st.inflight rid = some f := hf
      have hfn : rid ≤ st.executionOrder := by
        by_contra hgt
        push_neg at hgt
        rw [h.freshF rid hgt] at hf'
        exact Option.noConfusion hf'
      have hne : rid ≠ st.executionOrder + 1 := by omega
      obtain ⟨e2, he2, r2⟩ := h.flight rid f hf'
      refine ⟨e2, ?_, r2⟩
      simpa [hne] using he2
  · simp only [hc, if_false]
    apply inv_runExecutionQueue
    refine ⟨?_, ?_, ?_, ?_, ?_, ?_, ?_⟩
    · intro rid hrid
      have hrid' : st.executionOrder + 1 < rid := hrid
      have hne : rid ≠ st.executionOrder + 1 := by omega
      simpa [hne] using h.freshE rid (by omega)
    · intro rid hrid
      have hrid' : st.executionOrder + 1 < rid := hrid
      exact h.freshF rid (by omega)
    · intro req2 hm
      show req2.rid ≤ st.executionOrder + 1
      rcases List.mem_append.mp hm with hm1 | hm2
      · have := h.queueLe req2 hm1
        omega
      · have hr : req2 = { rid := st.executionOrder + 1,
                           command := joinSep (str "; ") (splitCommands text),
                           uri := uri } := by
          simpa using hm2
        rw [hr]
    · show ((st.executionQueue ++ [({ rid := st.executionOrder + 1,
                                      command := joinSep (str "; ") (splitCommands text),
                                      uri := uri } : CommandExecution)]).map
        CommandExecution.rid).Nodup
      rw [List.map_append]
      refine List.Nodup.append h.queueNodup (List.nodup_singleton _) ?_
      intro a ha hb
      have hb' : a = st.executionOrder + 1 := by simpa using hb
      obtain ⟨req2, hm2, hr2⟩ := List.mem_map.mp ha
      have := h.queueLe req2 hm2
      omega
    · intro req2 hm
      rcases List.mem_append.mp hm with hm1 | hm2
      · exact h.queueFlight req2 hm1
      · have hr : req2 = { rid := st.executionOrder + 1,
                           command := joinSep (str "; ") (splitCommands text),
                           uri := uri } := by
          simpa using hm2
        rw [hr]
        exact h.freshF _ (Nat.lt_succ_self _)
    · intro req2 hm
      rcases List.mem_append.mp hm with hm1 | hm2
      · obtain ⟨e2, he2, himp2⟩ := h.queueExec req2 hm1
        have hle2 := h.queueLe req2 hm1
        have hne : req2.rid ≠ st.executionOrder + 1 := by omega
        exact ⟨e2, by simpa [hne] using he2, himp2⟩
      · have hr : req2 = { rid := st.executionOrder + 1,
                           command := joinSep (str "; ") (splitCommands text),
                           uri := uri } := by
          simpa using hm2
        rw [hr]
        refine ⟨{ state := .started, cancelRequested := false, output := [],
                  hasObserver := true, uri := uri }, by simp, ?_⟩
        intro _
        exact ⟨rfl, rfl⟩
    · intro rid f hf
      have hf' : st.inflight rid = some f := hf
      have hfn : rid ≤ st.executionOrder := by
        by_contra hgt
        push_neg at hgt
        rw [h.freshF rid hgt] at hf'
        exact Option.noConfusion hf'
      have hne : rid ≠ st.executionOrder + 1 := by omega
      obtain ⟨e2, he2, r2⟩ := h.flight rid f hf'
      refine ⟨e2, ?_, r2⟩
      simpa [hne] using he2

/-- `endExec` preserves the invariant when the target execution's
cancellation has been requested. -/
theorem inv_endExec_cancelled (st : St) (rid : Nat) (s : Bool) (h : Inv st)
    (hc : cancelRequestedOf st rid = true) : Inv (endExec st rid s) := by
  refine ⟨?_, h.freshF, h.queueLe, h.queueNodup, h.queueFlight, ?_, ?_⟩
  · intro r hr
    by_cases hne : r = rid
    · have h1 := h.freshE r hr
      unfold endExec
      rw [hne] at h1 ⊢
      rw [execs_modifyExec_self, h1]
      rfl
    · unfold endExec
      rw [execs_modifyExec_other _ _ _ _ hne]
      exact h.freshE r hr
  · intro req hm
    obtain ⟨e2, he2, himp⟩ := h.queueExec req hm
    by_cases hne : req.rid = rid
    · have he2' : st.execs rid = some e2 := hne ▸ he2
      have hflag : e2.cancelRequested = true := by
        unfold cancelRequestedOf at hc
        rw [he2'] at hc
        exact hc
      cases hst2 : e2.state with
      | started =>
        refine ⟨{ e2 with state := .ended s }, ?_, ?_⟩
        · rw [hne]
          unfold endExec
          rw [execs_modifyExec_self, he2']
          simp [hst2]
        · intro hcf
          have : e2.cancelRequested = false := hcf
          rw [hflag] at this
          exact Bool.noConfusion this
      | ended b2 =>
        refine ⟨e2, ?_, himp⟩
        rw [hne]
        exact execs_endExec_of_ended st rid s e2 b2 he2' hst2
    · refine ⟨e2, ?_, himp⟩
      rw [execs_endExec_other _ _ _ _ hne]
      exact he2
  · intro r f hf
    obtain ⟨e2, he2, ha, hd, hfc, hsi⟩ := h.flight r f hf
    by_cases hne : r = rid
    · have he2' : st.execs rid = some e2 := hne ▸ he2
      have hflag : e2.cancelRequested = true := by
        unfold cancelRequestedOf at hc
        rw [he2'] at hc
        exact hc
      cases hst2 : e2.state with
      | started =>
        refine ⟨{ e2 with state := .ended s }, ?_, ha, hd, hfc, ?_⟩
        · rw [hne]
          unfold endExec
          rw [execs_modifyExec_self, he2']
          simp [hst2]
        · intro hcf
          have : e2.cancelRequested = false := hcf
          rw [hflag] at this
          exact Bool.noConfusion this
      | ended b2 =>
        refine ⟨e2, ?_, ha, hd, hfc, hsi⟩
        rw [hne]
        exact execs_endExec_of_ended st rid s e2 b2 he2' hst2
    · refine ⟨e2, ?_, ha, hd, hfc, hsi⟩
      rw [execs_endExec_other _ _ _ _ hne]
      exact he2

/-- A cancellation event preserves the invariant. -/
theorem inv_cancelEvent (st : St) (rid0 : Nat) (h : Inv st) :
    Inv (cancelEvent st rid0) := by
  unfold cancelEvent
  cases he : st.execs rid0 with
  | none => exact h
  | some e =>
    by_cases hf : e.cancelRequested = true
    · simp only [hf, if_true]
      exact h
    · simp only [hf, if_false]
      have hM : Inv (modifyExec st rid0 fun x => { x with cancelRequested := true }) := by
        refine ⟨?_, h.freshF, h.queueLe, h.queueNodup, h.queueFlight, ?_, ?_⟩
        · intro r hr
          by_cases hne : r = rid0
          · rw [hne] at hr ⊢
            rw [h.freshE rid0 hr] at he
            exact Option.noConfusion he
          · rw [execs_modifyExec_other _ _ _ _ hne]
            exact h.freshE r hr
        · intro req hm
          obtain ⟨e2, he2, himp2⟩ := h.queueExec req hm
          by_cases hne : req.rid = rid0
          · have he2' : st.execs rid0 = some e2 := hne ▸ he2
            have he2e : e2 = e := by
              rw [he2'] at he
              exact Option.some.inj he
            refine ⟨{ e2 with cancelRequested := true }, ?_, ?_⟩
            · rw [hne]
              rw [execs_modifyExec_self, he2']
              rfl
            · intro hcf
              have : (true : Bool) = false := hcf
              exact Bool.noConfusion this
          · refine ⟨e2, ?_, himp2⟩
            rw [execs_modifyExec_other _ _ _ _ hne]
            exact he2
        · intro r f2 hf2
          obtain ⟨e2, he2, ha, hd, hfc, hsi⟩ := h.flight r f2 hf2
          by_cases hne : r = rid0
          · have he2' : st.execs rid0 = some e2 := hne ▸ he2
            refine ⟨{ e2 with cancelRequested := true }, ?_, ha, hd, hfc, ?_⟩
            · rw [hne]
              rw [execs_modifyExec_self, he2']
              rfl
            · intro hcf
              have : (true : Bool) = false := hcf
              exact Bool.noConfusion this
          · refine ⟨e2, ?_, ha, hd, hfc, hsi⟩
            rw [execs_modifyExec_other _ _ _ _ hne]
            exact he2
      have hMc : cancelRequestedOf
          (modifyExec st rid0 fun x => { x with cancelRequested := true }) rid0 = true := by
        unfold cancelRequestedOf
        rw [execs_modifyExec_self, he]
        rfl
      by_cases ho : e.hasObserver = true
      · simp only [ho, if_true]
        cases hA : (modifyExec st rid0 fun x =>
            { x with cancelRequested := true }).isExecuting with
        | none => exact inv_endExec_cancelled _ rid0 false hM hMc
        | some a =>
          by_cases hu : a.uri = e.uri
          · simp only [hu, if_true]
            exact ⟨hM.freshE, hM.freshF, hM.queueLe, hM.queueNodup, hM.queueFlight,
              hM.queueExec, hM.flight⟩
          · simp only [hu, if_false]
            exact inv_endExec_cancelled _ rid0 false hM hMc
      · simp only [ho, if_false]
        exact hM

/-- A data chunk event preserves the invariant. -/
theorem inv_chunkEvent (st : St) (rid0 : Nat) (data : Str) (h : Inv st) :
    Inv (chunkEvent st rid0 data) := by
  unfold chunkEvent
  cases hfl : st.inflight rid0 with
  | none => exact h
  | some f =>
    by_cases hc : cancelRequestedOf st rid0 = true
    · simp only [hc, if_true]
      exact h
    · simp only [hc, if_false]
      obtain ⟨e, heq, ha, hd, hfc, hsi⟩ := h.flight rid0 f hfl
      have hcf : e.cancelRequested = false := by
        have hx : cancelRequestedOf st rid0 = e.cancelRequested := by
          unfold cancelRequestedOf
          rw [heq]
        rw [hx] at hc
        cases hb : e.cancelRequested with
        | false => rfl
        | true => rw [hb] at hc; exact absurd rfl hc
      have hstate := hsi hcf
      have hr0le : rid0 ≤ st.executionOrder := by
        by_contra hgt
        push_neg at hgt
        rw [h.freshF rid0 hgt] at hfl
        exact Option.noConfusion hfl
      have happ : (appendOutput
          { st with
              inflight := fun r =>
                if r = rid0 then
                  some { f with firstCommand := false,
                                dataParts := f.dataParts ++ [strip data] }
                else st.inflight r }
          rid0 (Item.dataMsg f.uri data f.firstCommand st.cols)).execs rid0 =
          some { e with output := e.output ++
            [Item.dataMsg f.uri data f.firstCommand st.cols] } :=
        execs_appendOutput_of_started _ rid0 _ e heq hstate
      refine ⟨?_, ?_, ?_, h.queueNodup, ?_, ?_, ?_⟩
      · intro r hr
        have hr' : st.executionOrder < r := hr
        have hne : r ≠ rid0 := by omega
        exact (execs_appendOutput_other _ rid0 r _ hne).trans (h.freshE r hr')
      · intro r hr
        have hr' : st.executionOrder < r := hr
        have hne : r ≠ rid0 := by omega
        have hx : (if r = rid0 then some ({ f with firstCommand := false, dataParts := f.dataParts ++ [strip data] } : InFlight) else st.inflight r) = none := by
          rw [if_neg hne]
          exact h.freshF r hr'
        exact hx
      · intro req hm
        exact h.queueLe req hm
      · intro req hm
        have h0 := h.queueFlight req hm
        have hne : req.rid ≠ rid0 := by
          intro hEq
          rw [hEq] at h0
          rw [h0] at hfl
          exact Option.noConfusion hfl
        have hx : (if req.rid = rid0 then some ({ f with firstCommand := false, dataParts := f.dataParts ++ [strip data] } : InFlight) else st.inflight req.rid) = none := by
          rw [if_neg hne]
          exact h0
        exact hx
      · intro req hm
        obtain ⟨e2, he2, himp2⟩ := h.queueExec req hm
        have h0 := h.queueFlight req hm
        have hne : req.rid ≠ rid0 := by
          intro hEq
          rw [hEq] at h0
          rw [h0] at hfl
          exact Option.noConfusion hfl
        exact ⟨e2, (execs_appendOutput_other _ rid0 req.rid _ hne).trans he2, himp2⟩
      · intro r f2 hf2
        by_cases hne : r = rid0
        · have h0 : (if r = rid0 then some ({ f with firstCommand := false, dataParts := f.dataParts ++ [strip data] } : InFlight) else st.inflight r) = some f2 := hf2
          rw [if_pos hne] at h0
          have hfeq : ({ f with firstCommand := false, dataParts := f.dataParts ++ [strip data] } : InFlight) = f2 :=
            Option.some.inj h0
          subst hfeq
          refine ⟨{ e with output := e.output ++
              [Item.dataMsg f.uri data f.firstCommand st.cols] }, ?_, ?_, ?_, ?_, ?_⟩
          · rw [hne]
            exact happ
          · show allData (e.output ++ [Item.dataMsg f.uri data f.firstCommand st.cols]) = true
            rw [allData_append_dataMsg]
            exact ha
          · show f.dataParts ++ [strip data] =
              (dataOf (e.output ++
                [Item.dataMsg f.uri data f.firstCommand st.cols])).map strip
            rw [dataOf_append, hd]
            simp [dataOf]
          · show false = (e.output ++
              [Item.dataMsg f.uri data f.firstCommand st.cols]).isEmpty
            simp
          · intro _
            exact hstate
        · have h0 : (if r = rid0 then some ({ f with firstCommand := false, dataParts := f.dataParts ++ [strip data] } : InFlight) else st.inflight r) = some f2 := hf2
          rw [if_neg hne] at h0
          obtain ⟨e2, he2, ha2, hd2, hfc2, hsi2⟩ := h.flight r f2 h0
          exact ⟨e2, (execs_appendOutput_other _ rid0 r _ hne).trans he2,
            ha2, hd2, hfc2, hsi2⟩

/-- Core of settle preservation: ending the settled execution, dropping its
in-flight state and clearing the slot preserves the invariant, for any
intermediate state `st1` that agrees with `st` away from the settled
execution. -/
theorem inv_settle_aux (st st1 : St) (rid0 : Nat) (success : Bool)
    (h : Inv st) (hflne : st.inflight rid0 ≠ none)
    (h1q : st1.executionQueue = st.executionQueue)
    (h1o : st1.executionOrder = st.executionOrder)
    (h1f : st1.inflight = st.inflight)
    (h1other : ∀ r, r ≠ rid0 → st1.execs r = st.execs r) :
    Inv { endExec st1 rid0 success with
          inflight := fun r =>
            if r = rid0 then none else (endExec st1 rid0 success).inflight r,
          isExecuting := none } := by
  refine ⟨?_, ?_, ?_, ?_, ?_, ?_, ?_⟩
  · intro r hr
    have hr'' : st1.executionOrder < r := hr
    rw [h1o] at hr''
    have hr0 : rid0 ≤ st.executionOrder := by
      by_contra hgt
      push_neg at hgt
      exact hflne (h.freshF rid0 hgt)
    have hne : r ≠ rid0 := by omega
    exact (execs_endExec_other st1 rid0 r success hne).trans
      ((h1other r hne).trans (h.freshE r hr''))
  · intro r hr
    have hr'' : st1.executionOrder < r := hr
    rw [h1o] at hr''
    by_cases hne : r = rid0
    · simp [hne]
    · have hx : (endExec st1 rid0 success).inflight r = none := by
        show st1.inflight r = none
        rw [h1f]
        exact h.freshF r hr''
      simpa [hne] using hx
  · intro req hm
    have hm' : req ∈ st.executionQueue := by
      have hm'' : req ∈ st1.executionQueue := hm
      rwa [h1q] at hm''
    show req.rid ≤ st1.executionOrder
    rw [h1o]
    exact h.queueLe req hm'
  · show (st1.executionQueue.map CommandExecution.rid).Nodup
    rw [h1q]
    exact h.queueNodup
  · intro req hm
    have hm' : req ∈ st.executionQueue := by
      have hm'' : req ∈ st1.executionQueue := hm
      rwa [h1q] at hm''
    have h0 := h.queueFlight req hm'
    by_cases hne : req.rid = rid0
    · simp [hne]
    · have hx : (endExec st1 rid0 success).inflight req.rid = none := by
        show st1.inflight req.rid = none
        rw [h1f]
        exact h0
      simpa [hne] using hx
  · intro req hm
    have hm' : req ∈ st.executionQueue := by
      have hm'' : req ∈ st1.executionQueue := hm
      rwa [h1q] at hm''
    obtain ⟨e2, he2, himp2⟩ := h.queueExec req hm'
    have hne : req.rid ≠ rid0 := by
      intro hEq
      have h0 := h.queueFlight req hm'
      rw [hEq] at h0
      exact hflne h0
    exact ⟨e2, (execs_endExec_other st1 rid0 req.rid success hne).trans
      ((h1other req.rid hne).trans he2), himp2⟩
  · intro r f2 hf2
    by_cases hne : r = rid0
    · have h0 : (if r = rid0 then none
          else (endExec st1 rid0 success).inflight r) = some f2 := hf2
      rw [if_pos hne] at h0
      exact Option.noConfusion h0
    · have h0 : (if r = rid0 then none
          else (endExec st1 rid0 success).inflight r) = some f2 := hf2
      rw [if_neg hne] at h0
      have h0' : st1.inflight r = some f2 := h0
      rw [h1f] at h0'
      obtain ⟨e2, he2, ha2, hd2, hfc2, hsi2⟩ := h.flight r f2 h0'
      exact ⟨e2, (execs_endExec_other st1 rid0 r success hne).trans
        ((h1other r hne).trans he2), ha2, hd2, hfc2, hsi2⟩

/-- A settle event preserves the invariant. -/
theorem inv_settleEvent (tr : Tr) (st : St) (rid0 : Nat) (success : Bool)
    (h : Inv st) : Inv (settleEvent tr st rid0 success) := by
  unfold settleEvent
  cases hfl : st.inflight rid0 with
  | none => exact h
  | some f =>
    have hflne : st.inflight rid0 ≠ none := by
      rw [hfl]
      exact fun hx => Option.noConfusion hx
    by_cases hfcb : f.firstCommand = true
    · simp only [hfcb, if_true]
      apply inv_runExecutionQueue
      exact inv_settle_aux st st rid0 success h hflne rfl rfl rfl fun r _ => rfl
    · simp only [hfcb, if_false]
      apply inv_runExecutionQueue
      exact inv_settle_aux st
        (replaceOutput st rid0
          [Item.finishedMsg f.uri, Item.textItem (joinSep [Char.ofNat 10] f.dataParts)])
        rid0 success h hflne rfl rfl rfl
        fun r hr => execs_replaceOutput_other st rid0 r _ hr

/-- The initial state satisfies the invariant. -/
theorem inv_initSt : Inv initSt :=
  ⟨fun _ _ => rfl, fun _ _ => rfl,
   fun _ hm => absurd hm (List.not_mem_nil _),
   List.nodup_nil,
   fun _ hm => absurd hm (List.not_mem_nil _),
   fun _ hm => absurd hm (List.not_mem_nil _),
   fun _ _ hf => Option.noConfusion hf⟩

/-- Every event preserves the invariant. -/
theorem inv_stepEv (tr : Tr) (st : St) (ev : Ev) (h : Inv st) :
    Inv (stepEv tr st ev) := by
  cases ev with
  | submit text uri => exact inv_doExecution tr st text uri h
  | cancel rid => exact inv_cancelEvent st rid h
  | chunk rid data => exact inv_chunkEvent st rid data h
  | settle rid success => exact inv_settleEvent tr st rid success h
  | setCols n =>
    exact ⟨h.freshE, h.freshF, h.queueLe, h.queueNodup, h.queueFlight,
      h.queueExec, h.flight⟩

/-- Every reachable state satisfies the invariant. -/
theorem inv_runTrace (tr : Tr) (evs : List Ev) : Inv (runTrace tr evs) := by
  unfold runTrace
  have hgen : ∀ st, Inv st → Inv (evs.foldl (stepEv tr) st) := by
    induction evs with
    | nil => intro st h; exact h
    | cons ev rest ih =>
      intro st h
      exact ih _ (inv_stepEv tr st ev h)
  exact hgen initSt inv_initSt

/-- The queue walk never touches the handle of an execution that is not in
the queue. -/
theorem execs_promoteLoop_not_queued (tr : Tr) (q : List CommandExecution) :
    ∀ (st : St) (r : Nat), r ∉ q.map CommandExecution.rid →
      (promoteLoop tr st q).execs r = st.execs r := by
  induction q with
  | nil => intro st r _; rfl
  | cons head rest ih =>
    intro st r hr
    have hrne : r ≠ head.rid := by
      intro hEq
      rw [List.map_cons] at hr
      exact hr (hEq ▸ List.mem_cons_self _ _)
    have hrrest : r ∉ rest.map CommandExecution.rid := by
      rw [List.map_cons] at hr
      exact fun hm => hr (List.mem_cons_of_mem _ hm)
    unfold promoteLoop
    by_cases hc : cancelRequestedOf st head.rid = true
    · simp only [hc, if_true]
      exact ih st r hrrest
    · simp only [hc, if_false]
      unfold promote
      cases htr : tr head.command with
      | none =>
        exact (execs_endExec_other _ head.rid r false hrne).trans
          (execs_replaceOutput_other _ head.rid r [Item.errorItem] hrne)
      | some updated => rfl

/-- The drain never touches the handle of an execution that is not in the
queue. -/
theorem execs_runExecutionQueue_not_queued (tr : Tr) (st : St) (r : Nat)
    (hr : r ∉ st.executionQueue.map CommandExecution.rid) :
    (runExecutionQueue tr st).execs r = st.execs r := by
  unfold runExecutionQueue
  by_cases hs : st.isExecuting.isSome = true
  · simp [hs]
  · simp only [hs, if_false]
    exact execs_promoteLoop_not_queued tr st.executionQueue st r hr

/-- Evaluation of the settle path at an in-flight execution. -/
theorem settleEvent_eq (tr : Tr) (st : St) (rid : Nat) (success : Bool)
    (f : InFlight) (hf : st.inflight rid = some f) :
    settleEvent tr st rid success =
      runExecutionQueue tr
        { endExec
            (if f.firstCommand then st
             else replaceOutput st rid
                [Item.finishedMsg f.uri,
                 Item.textItem (joinSep [Char.ofNat 10] f.dataParts)])
            rid success with
          inflight := fun r =>
            if r = rid then none
            else (endExec
                (if f.firstCommand then st
                 else replaceOutput st rid
                    [Item.finishedMsg f.uri,
                     Item.textItem (joinSep [Char.ofNat 10] f.dataParts)])
                rid success).inflight r,
          isExecuting := none } := by
  unfold settleEvent
  rw [hf]

/-- The settle path, for an in-flight execution whose cancellation was not
requested: its final output is empty when no `data` message was emitted, and
otherwise is exactly one `finished` message followed by one plain-text
transcript item holding the newline-joined ANSI-stripped emitted chunks. -/
theorem settle_output (tr : Tr) (st : St) (rid : Nat) (success : Bool)
    (f : InFlight) (e : ExecInfo) (hInv : Inv st)
    (hf : st.inflight rid = some f) (he : st.execs rid = some e)
    (hnc : cancelRequestedOf st rid = false) :
    outputOf (settleEvent tr st rid success) rid =
      (if dataOf e.output = [] then ([] : List Item)
       else [Item.finishedMsg f.uri,
             Item.textItem (joinSep [Char.ofNat 10] ((dataOf e.output).map strip))]) := by
  obtain ⟨e0, he0, ha, hd, hfc, hsi⟩ := hInv.flight rid f hf
  have he0e : e0 = e := by
    rw [he] at he0
    exact (Option.some.inj he0).symm
  rw [he0e] at ha hd hfc hsi
  have hcf : e.cancelRequested = false := by
    unfold cancelRequestedOf at hnc
    rw [he] at hnc
    exact hnc
  have hstate := hsi hcf
  have hnq : rid ∉ st.executionQueue.map CommandExecution.rid := by
    intro hm
    obtain ⟨req, hmq, hrq⟩ := List.mem_map.mp hm
    have h0 := hInv.queueFlight req hmq
    rw [hrq] at h0
    rw [h0] at hf
    exact Option.noConfusion hf
  rw [settleEvent_eq tr st rid success f hf]
  by_cases hout : dataOf e.output = []
  · have houtnil : e.output = [] := allData_dataOf_nil e.output ha hout
    have hfcb : f.firstCommand = true := by
      rw [hfc, houtnil]
      rfl
    rw [hfcb, if_pos rfl, if_pos hout]
    have h2 : (endExec st rid success).execs rid =
        some { e with state := .ended success } :=
      execs_endExec_of_started st rid success e he hstate
    have h5 : (runExecutionQueue tr
        { endExec st rid success with
          inflight := fun r =>
            if r = rid then none else (endExec st rid success).inflight r,
          isExecuting := none }).execs rid =
        some { e with state := .ended success } :=
      Eq.trans
        (execs_runExecutionQueue_not_queued tr
          { endExec st rid success with
            inflight := fun r =>
              if r = rid then none else (endExec st rid success).inflight r,
            isExecuting := none } rid hnq) h2
    unfold outputOf
    rw [h5]
    exact houtnil
  · have houtne : e.output ≠ [] := fun hn => hout (by rw [hn]; rfl)
    have hfcb : f.firstCommand = false := by
      rw [hfc]
      cases houtc : e.output with
      | nil => exact absurd houtc houtne
      | cons a l => rfl
    rw [hfcb, if_neg Bool.false_ne_true, if_neg hout]
    have h1 : (replaceOutput st rid
        [Item.finishedMsg f.uri,
         Item.textItem (joinSep [Char.ofNat 10] f.dataParts)]).execs rid =
        some { e with
               output := [Item.finishedMsg f.uri,
                          Item.textItem (joinSep [Char.ofNat 10] f.dataParts)] } :=
      execs_replaceOutput_of_started st rid _ e he hstate
    have h2 : (endExec (replaceOutput st rid
        [Item.finishedMsg f.uri,
         Item.textItem (joinSep [Char.ofNat 10] f.dataParts)]) rid success).execs rid =
        some { e with
               output := [Item.finishedMsg f.uri,
                          Item.textItem (joinSep [Char.ofNat 10] f.dataParts)],
               state := .ended success } :=
      execs_endExec_of_started _ rid success
        { e with
          output := [Item.finishedMsg f.uri,
                     Item.textItem (joinSep [Char.ofNat 10] f.dataParts)] } h1 hstate
    have h5 : (runExecutionQueue tr
        { endExec (replaceOutput st rid
            [Item.finishedMsg f.uri,
             Item.textItem (joinSep [Char.ofNat 10] f.dataParts)]) rid success with
          inflight := fun r =>
            if r = rid then none
            else (endExec (replaceOutput st rid
                [Item.finishedMsg f.uri,
                 Item.textItem (joinSep [Char.ofNat 10] f.dataParts)]) rid success).inflight r,
          isExecuting := none }).execs rid =
        some { e with
               output := [Item.finishedMsg f.uri,
                          Item.textItem (joinSep [Char.ofNat 10] f.dataParts)],
               state := .ended success } :=
      Eq.trans
        (execs_runExecutionQueue_not_queued tr
          { endExec (replaceOutput st rid
              [Item.finishedMsg f.uri,
               Item.textItem (joinSep [Char.ofNat 10] f.dataParts)]) rid success with
            inflight := fun r =>
              if r = rid then none
              else (endExec (replaceOutput st rid
                  [Item.finishedMsg f.uri,
                   Item.textItem (joinSep [Char.ofNat 10] f.dataParts)]) rid success).inflight r,
            isExecuting := none } rid hnq) h2
    unfold outputOf
    rw [h5, hd]

/-- Claim C5, counterexample.  The claim states that if at least one chunk
was *received*, exactly one `finished` message is emitted.  The code counts
only chunks that pass the cancellation check: submit a command, cancel the
active execution, then deliver a chunk — the chunk is received but dropped,
`firstCommand` remains true, and when the driver settles no `finished`
message and no transcript item are emitted (the output stays empty). -/
theorem c5_counterexample :
    Ev.chunk 1 (str "boom") ∈ c5xtrace ∧
    outputOf (runTrace trId c5xtrace) 1 = [] ∧
    stateOf (runTrace trId c5xtrace) 1 = some (.ended false) := by
  decide

/-- Claim C5, amended.  For every reachable state and every in-flight
execution whose cancellation has not been requested, when the driver
settles: if zero `data` messages were *emitted*, no `finished` message and no
transcript item are emitted (the output region stays empty); if at least one
was emitted, the whole output region is replaced by exactly one `finished`
message and exactly one plain-text transcript item equal to the
newline-joined concatenation of the ANSI-stripped emitted chunks in emission
order. -/
theorem c5_amended (tr : Tr) (evs : List Ev) (rid : Nat) (success : Bool)
    (f : InFlight) (e : ExecInfo)
    (hf : (runTrace tr evs).inflight rid = some f)
    (he : (runTrace tr evs).execs rid = some e)
    (hnc : cancelRequestedOf (runTrace tr evs) rid = false) :
    outputOf (settleEvent tr (runTrace tr evs) rid success) rid =
      (if dataOf e.output = [] then ([] : List Item)
       else [Item.finishedMsg f.uri,
             Item.textItem (joinSep [Char.ofNat 10] ((dataOf e.output).map strip))]) :=
  settle_output tr (runTrace tr evs) rid success f e (inv_runTrace tr evs) hf he hnc

/-- Claim C5, witness: one emitted chunk `hi`; settling yields exactly the
`finished` message and the transcript `hi`. -/
theorem c5_amended_witness :
    outputOf (settleEvent trId (runTrace trId c5wtrace) 1 true) 1 =
      [Item.finishedMsg (str "u5w"), Item.textItem (str "hi")] := by
  have h := c5_amended trId c5wtrace 1 true
    { uri := str "u5w", command := str "echo hi", dataParts := [str "hi"],
      firstCommand := false }
    { state := .started, cancelRequested := false,
      output := [Item.dataMsg (str "u5w") (str "hi") true 80],
      hasObserver := true, uri := str "u5w" }
    (by decide) (by decide) (by decide)
  rw [h]
  decide

/-- Claim C10.  Cancellation dispatch compares cell identity, not request
identity: in any state where a queued request (with observer registered,
token not yet fired) originates from the same cell uri as the currently
active request, cancelling the queued request forwards a terminate signal to
the Process Driver and does not end the queued execution — its handle keeps
its previous state instead of being failed synchronously. -/
theorem c10_cancel_dispatch_by_cell (st : St) (rid : Nat) (e : ExecInfo)
    (a : CommandExecution)
    (hE : st.execs rid = some e) (hObs : e.hasObserver = true)
    (hNC : e.cancelRequested = false)
    (_hQ : rid ∈ st.executionQueue.map CommandExecution.rid)
    (hA : st.isExecuting = some a) (_hNe : a.rid ≠ rid) (hU : a.uri = e.uri) :
    (cancelEvent st rid).terminates = st.terminates + 1 ∧
    (cancelEvent st rid).execs rid = some { e with cancelRequested := true } ∧
    stateOf (cancelEvent st rid) rid = some e.state := by
  unfold cancelEvent
  rw [hE]
  simp [hNC, hObs, modifyExec, hA, hU, hE, stateOf]

/-! ### Preservation of terminal handle states -/

/-- A point update with a state-preserving function preserves every handle
state. -/
theorem stateOf_modifyExec_keep (st : St) (r rid : Nat) (g : ExecInfo → ExecInfo)
    (hg : ∀ e, (g e).state = e.state) :
    stateOf (modifyExec st r g) rid = stateOf st rid := by
  unfold stateOf modifyExec
  by_cases h : rid = r
  · subst h
    simp only [if_pos rfl]
    cases st.execs rid <;> simp [hg]
  · simp [h]

/-- `appendOutput` never changes a handle state. -/
theorem stateOf_appendOutput (st : St) (r rid : Nat) (item : Item) :
    stateOf (appendOutput st r item) rid = stateOf st rid := by
  unfold appendOutput
  apply stateOf_modifyExec_keep
  intro e
  cases h : e.state <;> simp [h]

/-- `replaceOutput` never changes a handle state. -/
theorem stateOf_replaceOutput (st : St) (r rid : Nat) (items : List Item) :
    stateOf (replaceOutput st r items) rid = stateOf st rid := by
  unfold replaceOutput
  apply stateOf_modifyExec_keep
  intro e
  cases h : e.state <;> simp [h]

/-- The host handle rejects a second `end`: `endExec` preserves an already
ended handle state. -/
theorem stateOf_endExec_ended (st : St) (r rid : Nat) (s b : Bool)
    (hst : stateOf st rid = some (.ended b)) :
    stateOf (endExec st r s) rid = some (.ended b) := by
  by_cases h : rid = r
  · subst h
    cases he : st.execs rid with
    | none =>
      unfold stateOf at hst
      rw [he] at hst
      simp at hst
    | some e =>
      have hstate : e.state = .ended b := by
        unfold stateOf at hst
        rw [he] at hst
        simpa using hst
      unfold stateOf
      rw [execs_endExec_of_ended st rid s e b he hstate]
      simp [hstate]
  · unfold stateOf at hst ⊢
    rw [show (endExec st r s).execs rid = st.execs rid from
      execs_modifyExec_other st r rid _ h]
    exact hst

/-- `promote` preserves an ended handle state. -/
theorem stateOf_promote_ended (tr : Tr) (st : St) (head : CommandExecution)
    (rid : Nat) (b : Bool) (hst : stateOf st rid = some (.ended b)) :
    stateOf (promote tr st head) rid = some (.ended b) := by
  unfold promote
  cases htr : tr head.command with
  | none =>
    have h1 : stateOf (replaceOutput { st with isExecuting := some head }
        head.rid [Item.errorItem]) rid = some (.ended b) := by
      rw [stateOf_replaceOutput]; exact hst
    exact stateOf_endExec_ended _ head.rid rid false b h1
  | some updated => exact hst

/-- The queue walk preserves an ended handle state. -/
theorem stateOf_promoteLoop_ended (tr : Tr) (st : St) (q : List CommandExecution)
    (rid : Nat) (b : Bool) (hst : stateOf st rid = some (.ended b)) :
    stateOf (promoteLoop tr st q) rid = some (.ended b) := by
  induction q generalizing st with
  | nil => exact hst
  | cons head rest ih =>
    unfold promoteLoop
    by_cases h : cancelRequestedOf st head.rid = true
    · simp only [h, if_true]
      exact ih st hst
    · simp only [h, if_false, Bool.false_eq_true]
      exact stateOf_promote_ended tr _ head rid b hst

/-- `runExecutionQueue` preserves an ended handle state. -/
theorem stateOf_runExecutionQueue_ended (tr : Tr) (st : St) (rid : Nat) (b : Bool)
    (hst : stateOf st rid = some (.ended b)) :
    stateOf (runExecutionQueue tr st) rid = some (.ended b) := by
  unfold runExecutionQueue
  by_cases h : st.isExecuting.isSome = true
  · simp only [h, if_true]; exact hst
  · simp only [h, if_false, Bool.false_eq_true]
    exact stateOf_promoteLoop_ended tr st _ rid b hst

/-- `doExecution` preserves the ended handle state of every already existing
execution: the fresh handle gets a strictly larger number. -/
theorem stateOf_doExecution_ended (tr : Tr) (st : St) (text uri : Str)
    (rid : Nat) (b : Bool) (hle : rid ≤ st.executionOrder)
    (hst : stateOf st rid = some (.ended b)) :
    stateOf (doExecution tr st text uri) rid = some (.ended b) := by
  have hne : rid ≠ st.executionOrder + 1 := by omega
  unfold doExecution
  by_cases hc : (splitCommands text).isEmpty = true
  · simp only [hc, if_true]
    unfold stateOf at hst ⊢
    simpa [hne] using hst
  · simp only [hc, if_false, Bool.false_eq_true]
    apply stateOf_runExecutionQueue_ended
    unfold stateOf at hst ⊢
    simpa [hne] using hst

/-- `cancelEvent` preserves an ended handle state. -/
theorem stateOf_cancelEvent_ended (st : St) (r rid : Nat) (b : Bool)
    (hst : stateOf st rid = some (.ended b)) :
    stateOf (cancelEvent st r) rid = some (.ended b) := by
  unfold cancelEvent
  cases he : st.execs r with
  | none => exact hst
  | some e =>
    by_cases hf : e.cancelRequested = true
    · simp only [hf, if_true]; exact hst
    · simp only [hf, if_false, Bool.false_eq_true]
      have h1 : stateOf (modifyExec st r fun x => { x with cancelRequested := true })
          rid = some (.ended b) := by
        rw [stateOf_modifyExec_keep]
        · exact hst
        · intro x; rfl
      by_cases ho : e.hasObserver = true
      · simp only [ho, if_true]
        cases hA : (modifyExec st r fun x => { x with cancelRequested := true }).isExecuting with
        | none => exact stateOf_endExec_ended _ r rid false b h1
        | some a =>
          by_cases hu : a.uri = e.uri
          · simp only [hu, if_true]; exact h1
          · simp only [hu, if_false]
            exact stateOf_endExec_ended _ r rid false b h1
      · simp only [ho, if_false, Bool.false_eq_true]
        exact h1

/-- `chunkEvent` preserves an ended handle state. -/
theorem stateOf_chunkEvent_ended (st : St) (r rid : Nat) (data : Str) (b : Bool)
    (hst : stateOf st rid = some (.ended b)) :
    stateOf (chunkEvent st r data) rid = some (.ended b) := by
  unfold chunkEvent
  cases hfl : st.inflight r with
  | none => exact hst
  | some f =>
    by_cases hc : cancelRequestedOf st r = true
    · simp only [hc, if_true]; exact hst
    · simp only [hc, if_false, Bool.false_eq_true]
      rw [stateOf_appendOutput]
      exact hst

/-- `settleEvent` preserves an ended handle state. -/
theorem stateOf_settleEvent_ended (tr : Tr) (st : St) (r rid : Nat)
    (success b : Bool) (hst : stateOf st rid = some (.ended b)) :
    stateOf (settleEvent tr st r success) rid = some (.ended b) := by
  unfold settleEvent
  cases hfl : st.inflight r with
  | none => exact hst
  | some f =>
    apply stateOf_runExecutionQueue_ended
    apply stateOf_endExec_ended
    by_cases hfc : f.firstCommand = true
    · simp only [hfc, if_true]; exact hst
    · simp only [hfc, if_false, Bool.false_eq_true]
      rw [stateOf_replaceOutput]
      exact hst

/-- Claim C6.  Once an execution has reached a terminal state, no later event
ever mutates its recorded final state (the host handle rejects a second
`end`, so the completion path always wins), and in particular a subsequently
arriving cancellation signal leaves both the final state and the output of
the terminal execution unchanged. -/
theorem c6_terminal_state_immutable (tr : Tr) (st : St) (ev : Ev) (rid : Nat)
    (b : Bool) (hle : rid ≤ st.executionOrder)
    (hst : stateOf st rid = some (.ended b)) :
    stateOf (stepEv tr st ev) rid = some (.ended b) ∧
    ∀ e, st.execs rid = some e →
      ∃ e2, (cancelEvent st rid).execs rid = some e2 ∧
        e2.state = e.state ∧ e2.output = e.output := by
  constructor
  · cases ev with
    | submit text uri => exact stateOf_doExecution_ended tr st text uri rid b hle hst
    | cancel r => exact stateOf_cancelEvent_ended st r rid b hst
    | chunk r data => exact stateOf_chunkEvent_ended st r rid data b hst
    | settle r success => exact stateOf_settleEvent_ended tr st r rid success b hst
    | setCols n => exact hst
  · intro e he
    have hstate : e.state = .ended b := by
      unfold stateOf at hst
      rw [he] at hst
      simpa using hst
    unfold cancelEvent
    rw [he]
    by_cases hf : e.cancelRequested = true
    · simp only [hf, if_true]
      exact ⟨e, he, rfl, rfl⟩
    · simp only [hf, if_false, Bool.false_eq_true]
      have hmod : (modifyExec st rid fun x => { x with cancelRequested := true }).execs rid =
          some { e with cancelRequested := true } := by
        rw [execs_modifyExec_self, he]
        rfl
      have hend : (endExec (modifyExec st rid fun x => { x with cancelRequested := true })
          rid false).execs rid = some { e with cancelRequested := true } :=
        execs_endExec_of_ended _ rid false _ b hmod hstate
      by_cases ho : e.hasObserver = true
      · simp only [ho, if_true]
        cases hA : (modifyExec st rid fun x => { x with cancelRequested := true }).isExecuting with
        | none => exact ⟨{ e with cancelRequested := true }, hend, rfl, rfl⟩
        | some a =>
          by_cases hu : a.uri = e.uri
          · simp only [hu, if_true]
            exact ⟨{ e with cancelRequested := true }, hmod, rfl, rfl⟩
          · simp only [hu, if_false]
            exact ⟨{ e with cancelRequested := true }, hend, rfl, rfl⟩
      · simp only [ho, if_false, Bool.false_eq_true]
        exact ⟨{ e with cancelRequested := true }, hmod, rfl, rfl⟩

/-- Claim C6, witness: execution 1 ended successfully; a late cancellation
leaves its final state `ended true` and its output untouched. -/
theorem c6_witness :
    stateOf (stepEv trId (runTrace trId c6wtrace) (.cancel 1)) 1 =
      some (.ended true) ∧
    ∃ e2, (cancelEvent (runTrace trId c6wtrace) 1).execs 1 = some e2 ∧
      e2.state = HandleState.ended true ∧ e2.output = [] := by
  have h := c6_terminal_state_immutable trId (runTrace trId c6wtrace) (.cancel 1) 1 true
    (by decide) (by decide)
  refine ⟨h.1, ?_⟩
  obtain ⟨e2, h1, h2, h3⟩ := h.2
    { state := .ended true, cancelRequested := false, output := [],
      hasObserver := true, uri := str "u6" } (by decide)
  exact ⟨e2, h1, h2, h3⟩

/-! ### The Output Codec: idempotence and printable-character safety -/

/-- Pending characters of a scanner mode contain no ESC. -/
def modeNoEsc : StripMode → Prop
  | .csi p => escChar ∉ p
  | _ => True

/-- The stripped output contains no ESC character: every ESC is consumed,
either as part of a recognized sequence or as an orphan. -/
theorem noEsc_stripGo : ∀ (l : Str) (m : StripMode), modeNoEsc m →
    escChar ∉ stripGo m l := by
  intro l
  induction l with
  | nil =>
    intro m hm
    cases m with
    | normal => simp [stripGo]
    | sawEsc => simp [stripGo]
    | csi p => simpa [stripGo] using hm
  | cons c rest ih =>
    intro m hm
    cases m with
    | normal =>
      by_cases hc : c = escChar
      · simp only [stripGo, if_pos hc]
        exact ih .sawEsc trivial
      · simp only [stripGo, if_neg hc]
        intro hmem
        rcases List.mem_cons.mp hmem with h1 | h2
        · exact hc h1.symm
        · exact ih .normal trivial h2
    | sawEsc =>
      by_cases hb : c = '['
      · simp only [stripGo, if_pos hb]
        refine ih (.csi ['[']) ?_
        intro hmem
        have : escChar = '[' := List.mem_singleton.mp hmem
        exact absurd this (by decide)
      · by_cases hc : c = escChar
        · simp only [stripGo, if_neg hb, if_pos hc]
          exact ih .sawEsc trivial
        · simp only [stripGo, if_neg hb, if_neg hc]
          intro hmem
          rcases List.mem_cons.mp hmem with h1 | h2
          · exact hc h1.symm
          · exact ih .normal trivial h2
    | csi p =>
      have hp : escChar ∉ p := hm
      by_cases hf : isFinalByte c = true
      · simp only [stripGo, if_pos hf]
        exact ih .normal trivial
      · by_cases hs : isSeqByte c = true
        · simp only [stripGo, if_neg hf, if_pos hs]
          refine ih (.csi (p ++ [c])) ?_
          intro hmem
          rcases List.mem_append.mp hmem with h1 | h2
          · exact hp h1
          · have hcc : c = escChar := (List.mem_singleton.mp h2).symm
            rw [hcc] at hs
            exact absurd hs (by decide)
        · by_cases hc : c = escChar
          · simp only [stripGo, if_neg hf, if_neg hs, if_pos hc]
            intro hmem
            rcases List.mem_append.mp hmem with h1 | h2
            · exact hp h1
            · exact ih .sawEsc trivial h2
          · simp only [stripGo, if_neg hf, if_neg hs, if_neg hc]
            intro hmem
            rcases List.mem_append.mp hmem with h1 | h2
            · exact hp h1
            · rcases List.mem_cons.mp h2 with h3 | h4
              · exact hc h3.symm
              · exact ih .normal trivial h4

/-- On an ESC-free input the scanner is the identity. -/
theorem stripGo_noEsc_id : ∀ l : Str, escChar ∉ l → stripGo .normal l = l := by
  intro l
  induction l with
  | nil => intro _; rfl
  | cons c rest ih =>
    intro hl
    have hc : ¬ c = escChar := fun hEq =>
      hl (hEq ▸ List.mem_cons_self _ _)
    simp only [stripGo, if_neg hc]
    rw [ih fun hm => hl (List.mem_cons_of_mem _ hm)]

/-- Kept segments flatten back to their characters. -/
theorem flatMap_keep_segStr (l : Str) : (l.map Seg.keep).flatMap segStr = l := by
  induction l with
  | nil => rfl
  | cons c r ih => simp [segStr, ih]

/-- Kept segments contribute all their characters to the output. -/
theorem flatMap_keep_segOut (l : Str) : (l.map Seg.keep).flatMap segOut = l := by
  induction l with
  | nil => rfl
  | cons c r ih => simp [segOut, ih]

/-- The segmentation covers the input exactly (with the mode's pending
characters in front). -/
theorem segsGo_flatMap_segStr : ∀ (l : Str) (m : StripMode),
    (segsGo m l).flatMap segStr = modeStr m ++ l := by
  intro l
  induction l with
  | nil =>
    intro m
    cases m with
    | normal => rfl
    | sawEsc => rfl
    | csi p => simp [segsGo, modeStr, segStr, flatMap_keep_segStr]
  | cons c rest ih =>
    intro m
    cases m with
    | normal =>
      by_cases hc : c = escChar
      · simp only [segsGo, if_pos hc, ih .sawEsc, modeStr]
        rw [hc]
        rfl
      · simp only [segsGo, if_neg hc]
        simp [segStr, ih .normal, modeStr]
    | sawEsc =>
      by_cases hb : c = '['
      · simp only [segsGo, if_pos hb, ih (.csi ['['])]
        rw [hb]
        rfl
      · by_cases hc : c = escChar
        · simp only [segsGo, if_neg hb, if_pos hc]
          simp [segStr, ih .sawEsc, modeStr]
          rw [hc]
        · simp only [segsGo, if_neg hb, if_neg hc]
          simp [segStr, ih .normal, modeStr]
    | csi p =>
      by_cases hf : isFinalByte c = true
      · simp only [segsGo, if_pos hf]
        simp [segStr, ih .normal, modeStr]
      · by_cases hs : isSeqByte c = true
        · simp only [segsGo, if_neg hf, if_pos hs, ih (.csi (p ++ [c]))]
          simp [modeStr]
        · by_cases hc : c = escChar
          · simp only [segsGo, if_neg hf, if_neg hs, if_pos hc]
            simp [segStr, ih .sawEsc, modeStr, flatMap_keep_segStr]
            rw [hc]
          · simp only [segsGo, if_neg hf, if_neg hs, if_neg hc]
            simp [segStr, ih .normal, modeStr, flatMap_keep_segStr]

/-- The kept characters of the segmentation are exactly the stripped
output. -/
theorem segsGo_flatMap_segOut : ∀ (l : Str) (m : StripMode),
    (segsGo m l).flatMap segOut = stripGo m l := by
  intro l
  induction l with
  | nil =>
    intro m
    cases m with
    | normal => rfl
    | sawEsc => rfl
    | csi p => simp [segsGo, stripGo, segOut, flatMap_keep_segOut]
  | cons c rest ih =>
    intro m
    cases m with
    | normal =>
      by_cases hc : c = escChar
      · simp only [segsGo, stripGo, if_pos hc, ih .sawEsc]
      · simp only [segsGo, stripGo, if_neg hc]
        simp [segOut, ih .normal]
    | sawEsc =>
      by_cases hb : c = '['
      · simp only [segsGo, stripGo, if_pos hb, ih (.csi ['['])]
      · by_cases hc : c = escChar
        · simp only [segsGo, stripGo, if_neg hb, if_pos hc]
          simp [segOut, ih .sawEsc]
        · simp only [segsGo, stripGo, if_neg hb, if_neg hc]
          simp [segOut, ih .normal]
    | csi p =>
      by_cases hf : isFinalByte c = true
      · simp only [segsGo, stripGo, if_pos hf]
        simp [segOut, ih .normal]
      · by_cases hs : isSeqByte c = true
        · simp only [segsGo, stripGo, if_neg hf, if_pos hs, ih (.csi (p ++ [c]))]
        · by_cases hc : c = escChar
          · simp only [segsGo, stripGo, if_neg hf, if_neg hs, if_pos hc]
            simp [segOut, ih .sawEsc, flatMap_keep_segOut]
          · simp only [segsGo, stripGo, if_neg hf, if_neg hs, if_neg hc]
            simp [segOut, ih .normal, flatMap_keep_segOut]

/-- `csiBody` of a nonempty tail. -/
theorem csiBody_cons (a : Char) (l : Str) (hl : l ≠ []) :
    csiBody (a :: l) = (isSeqByte a && csiBody l) := by
  cases l with
  | nil => exact absurd rfl hl
  | cons b bs => rfl

/-- Sequence bytes followed by a final byte form a recognized body. -/
theorem csiBody_append_final : ∀ (ps : Str) (c : Char),
    ps.all isSeqByte = true → isFinalByte c = true →
    csiBody (ps ++ [c]) = true := by
  intro ps
  induction ps with
  | nil =>
    intro c _ hc
    simpa [csiBody] using hc
  | cons a as ih =>
    intro c hall hc
    rw [List.all_cons, Bool.and_eq_true] at hall
    rw [List.cons_append, csiBody_cons a (as ++ [c]) (by simp), hall.1,
      ih c hall.2 hc]
    rfl

/-- Every dropped segment is a lone ESC or a recognized escape sequence. -/
theorem segsGo_drops : ∀ (l : Str) (m : StripMode), ModeOk m →
    ∀ d, Seg.drop d ∈ segsGo m l → d = [escChar] ∨ recognizedSeq d = true := by
  intro l
  induction l with
  | nil =>
    intro m hm d hd
    cases m with
    | normal => exact absurd hd (List.not_mem_nil _)
    | sawEsc =>
      have : Seg.drop d = Seg.drop [escChar] := List.mem_singleton.mp hd
      exact Or.inl (by injection this)
    | csi p =>
      rcases List.mem_cons.mp hd with h1 | h2
      · exact Or.inl (by injection h1)
      · obtain ⟨x, _, hx⟩ := List.mem_map.mp h2
        exact absurd hx.symm (by simp)
  | cons c rest ih =>
    intro m hm d hd
    cases m with
    | normal =>
      by_cases hc : c = escChar
      · rw [segsGo, if_pos hc] at hd
        exact ih .sawEsc trivial d hd
      · rw [segsGo, if_neg hc] at hd
        rcases List.mem_cons.mp hd with h1 | h2
        · exact absurd h1 (by simp)
        · exact ih .normal trivial d h2
    | sawEsc =>
      by_cases hb : c = '['
      · rw [segsGo, if_pos hb] at hd
        refine ih (.csi ['[']) ⟨[], rfl, rfl⟩ d hd
      · by_cases hc : c = escChar
        · rw [segsGo, if_neg hb, if_pos hc] at hd
          rcases List.mem_cons.mp hd with h1 | h2
          · exact Or.inl (by injection h1)
          · exact ih .sawEsc trivial d h2
        · rw [segsGo, if_neg hb, if_neg hc] at hd
          rcases List.mem_cons.mp hd with h1 | h2
          · exact Or.inl (by injection h1)
          · rcases List.mem_cons.mp h2 with h3 | h4
            · exact absurd h3 (by simp)
            · exact ih .normal trivial d h4
    | csi p =>
      obtain ⟨ps, hps, hall⟩ := hm
      by_cases hf : isFinalByte c = true
      · rw [segsGo, if_pos hf] at hd
        rcases List.mem_cons.mp hd with h1 | h2
        · have hdval : d = escChar :: p ++ [c] := by injection h1
          right
          rw [hdval, hps]
          show recognizedSeq (escChar :: '[' :: (ps ++ [c])) = true
          show (decide (escChar = escChar) && decide ('[' = '[') &&
            csiBody (ps ++ [c])) = true
          rw [csiBody_append_final ps c hall hf]
          rfl
        · exact ih .normal trivial d h2
      · by_cases hs : isSeqByte c = true
        · rw [segsGo, if_neg hf, if_pos hs] at hd
          refine ih (.csi (p ++ [c])) ⟨ps ++ [c], by rw [hps]; rfl, ?_⟩ d hd
          rw [List.all_append, hall]
          simpa using hs
        · by_cases hc : c = escChar
          · rw [segsGo, if_neg hf, if_neg hs, if_pos hc] at hd
            rcases List.mem_cons.mp hd with h1 | h2
            · exact Or.inl (by injection h1)
            · rcases List.mem_append.mp h2 with h3 | h4
              · obtain ⟨x, _, hx⟩ := List.mem_map.mp h3
                exact absurd hx.symm (by simp)
              · exact ih .sawEsc trivial d h4
          · rw [segsGo, if_neg hf, if_neg hs, if_neg hc] at hd
            rcases List.mem_cons.mp hd with h1 | h2
            · exact Or.inl (by injection h1)
            · rcases List.mem_append.mp h2 with h3 | h4
              · obtain ⟨x, _, hx⟩ := List.mem_map.mp h3
                exact absurd hx.symm (by simp)
              · rcases List.mem_cons.mp h4 with h5 | h6
                · exact absurd h5 (by simp)
                · exact ih .normal trivial d h6

/-- Claim C9.  The Output Codec's strip function is idempotent, and it never
removes printable characters that are not part of a recognized escape
sequence: every input splits into segments whose kept characters form the
stripped output, and every dropped segment is either a lone ESC control
character (not printable) or a recognized escape sequence. -/
theorem c9_strip_idempotent_and_safe :
    (∀ s : Str, strip (strip s) = strip s) ∧
    (∀ s : Str, ∃ ss : List Seg,
      ss.flatMap segStr = s ∧ ss.flatMap segOut = strip s ∧
      ∀ d, Seg.drop d ∈ ss → d = [escChar] ∨ recognizedSeq d = true) := by
  constructor
  · intro s
    exact stripGo_noEsc_id _ (noEsc_stripGo s .normal trivial)
  · intro s
    refine ⟨segs s, ?_, ?_, ?_⟩
    · simpa using segsGo_flatMap_segStr s .normal
    · exact segsGo_flatMap_segOut s .normal
    · exact segsGo_drops s .normal trivial

/-- Claim C9, witness: evaluation on a concrete colored string. -/
theorem c9_witness :
    strip (strip (str "a\x1b[31mb")) = strip (str "a\x1b[31mb") ∧
    strip (str "a\x1b[31mb") = str "ab" :=
  ⟨c9_strip_idempotent_and_safe.1 (str "a\x1b[31mb"), by decide⟩

/-- Claim C10, witness: the same cell submitted twice, request 1 active and
request 2 queued on cell `uu2`; cancelling request 2 terminates the running
process and leaves request 2 started. -/
theorem c10_witness :
    (cancelEvent (runTrace trId c10wtrace) 2).terminates =
      (runTrace trId c10wtrace).terminates + 1 ∧
    (cancelEvent (runTrace trId c10wtrace) 2).execs 2 =
      some { state := .started, cancelRequested := true, output := [],
             hasObserver := true, uri := str "uu2" } ∧
    stateOf (cancelEvent (runTrace trId c10wtrace) 2) 2 = some .started :=
  c10_cancel_dispatch_by_cell (runTrace trId c10wtrace) 2
    { state := .started, cancelRequested := false, output := [],
      hasObserver := true, uri := str "uu2" }
    { rid := 1, command := str "a", uri := str "uu2" }
    (by decide) (by decide) (by decide) (by decide) (by decide)
    (by decide) (by decide)

end BashBook
